import Mathlib

/-!
Verification of the Document Master engine
(src/tools/document_master/engine.py) against its specification.

The engine manages a tiered document index, a vector-store collection of
text chunks, resumable batch ingestion and tier-weighted semantic search.
External collaborators (the chromadb vector backend, the langchain text
splitter, the file system and the clock) are modelled as explicit inputs:
the splitter is a function parameter, file reads and parses are carried by
a FileInput record, distances returned by the vector backend are an
explicit distance oracle, and timestamps are passed in as strings.
All engine control flow is translated directly from the source.
-/

namespace DocMaster

/-- Metadata attached to each stored chunk, as built in ingest_file. -/
structure ChunkMeta where
  source_file : String
  source_path : String
  chunk_index : Nat
  total_chunks : Nat
  sha256 : String
  tier : String
  ingested_at : String
deriving DecidableEq

/-- One entry of the chromadb collection: id, document text, metadata. -/
structure ChunkEntry where
  id : String
  document : String
  meta : ChunkMeta
deriving DecidableEq

/-- One record of the persistent document index, keyed by filename. -/
structure DocRecord where
  sha256 : String
  path : String
  chunks : Nat
  chars : Nat
  tier : String
  ingested_at : String
deriving DecidableEq

/-- In-memory engine state: the vector-store collection plus the JSON
document index (documents map, per-tier stats counters, last_updated). -/
structure EngineState where
  entries : List ChunkEntry
  documents : List (String × DocRecord)
  stats : List (String × Nat)
  lastUpdated : Option String
deriving DecidableEq

/-- Association-list lookup, modelling Python dict access by key. -/
def getKey {β : Type} (m : List (String × β)) (k : String) : Option β :=
  match m with
  | [] => none
  | (k', v) :: rest => if k' = k then some v else getKey rest k

/-- Association-list update, modelling Python dict assignment by key. -/
def setKey {β : Type} (m : List (String × β)) (k : String) (v : β) :
    List (String × β) :=
  match m with
  | [] => [(k, v)]
  | (k', v') :: rest =>
      if k' = k then (k, v) :: rest else (k', v') :: setKey rest k v

/-- Reads a per-tier stats counter with default 0 (dict.get(tier, 0)). -/
def statsGet (m : List (String × Nat)) (k : String) : Nat :=
  (getKey m k).getD 0

/-- The fresh index created by load_index when no file exists. -/
def initialState : EngineState :=
  { entries := []
    documents := []
    stats := [("gold", 0), ("archive", 0), ("standard", 0)]
    lastUpdated := none }

/-- Outcome classification of ingest_file. -/
inductive IngestStatus where
  | ingested
  | skipped
  | error
deriving DecidableEq

/-- The result dict returned by ingest_file. -/
structure IngestResult where
  file : String
  status : IngestStatus
  reason : Option String
  chunks : Option Nat
  chars : Option Nat
  tier : Option String
deriving DecidableEq

/-- A source file as seen through the file-system boundary:
its basename, resolved path, the result of hashing its bytes
(none when the file cannot be read) and the result of parse_file
(none when the parser raises). -/
structure FileInput where
  fname : String
  path : String
  hashResult : Option String
  parseResult : Option String
deriving DecidableEq

/-- Error result dict of ingest_file. -/
def mkError (fname reason : String) : IngestResult :=
  { file := fname, status := .error, reason := some reason
    chunks := none, chars := none, tier := none }

/-- Skipped result dict of ingest_file. -/
def mkSkipped (fname : String) : IngestResult :=
  { file := fname, status := .skipped, reason := some ("already ingested")
    chunks := none, chars := none, tier := none }

/-- Python str.strip(): the string without leading and trailing
whitespace. -/
def strTrim (s : String) : String :=
  String.mk (((s.data.dropWhile (fun c => c.isWhitespace)).reverse.dropWhile
    (fun c => c.isWhitespace)).reverse)

/-- The unchanged-hash-and-tier skip test of ingest_file: not force, the
filename is present in the index, and both sha256 and tier match. -/
def skipCond (st : EngineState) (f : FileInput) (fhash tier : String)
    (force : Bool) : Bool :=
  !force &&
    (match getKey st.documents f.fname with
     | some r => r.sha256 == fhash && r.tier == tier
     | none => false)

/-- The ids returned by collection.get(where source_file = fname). -/
def delIdsOf (entries : List ChunkEntry) (fname : String) : List String :=
  (entries.filter (fun e => e.meta.source_file == fname)).map
    (fun e => e.id)

/-- The pre-delete step of ingest_file: collect the ids of every entry
whose source_file metadata equals the filename and, when that list is
nonempty, delete them. -/
def deleteFileChunks (entries : List ChunkEntry) (fname : String) :
    List ChunkEntry :=
  if (delIdsOf entries fname).isEmpty then entries
  else entries.filter (fun e => !((delIdsOf entries fname).contains e.id))

/-- The new collection entries built by ingest_file: ids
fname__chunk_i, chunk texts, and metadata records. The source adds them
in slices of 100 whose concatenation is this whole list. -/
def newChunkEntries (f : FileInput) (tier fhash now : String)
    (chunks : List String) : List ChunkEntry :=
  (List.range chunks.length).map (fun i =>
    { id := f.fname ++ "__chunk_" ++ toString i
      document := chunks.getD i ""
      meta :=
        { source_file := f.fname
          source_path := f.path
          chunk_index := i
          total_chunks := chunks.length
          sha256 := fhash
          tier := tier
          ingested_at := now } })

/-- DocumentMaster.ingest_file: hash the file, skip when the hash and
tier are unchanged, parse, reject empty text and empty chunk lists,
pre-delete old chunks for the filename, add new chunks, upsert the
index record, bump the tier stats counter and stamp last_updated. -/
def ingestFile (split : String → List String) (now : String)
    (st : EngineState) (f : FileInput) (tier : String) (force : Bool) :
    IngestResult × EngineState :=
  match f.hashResult with
  | none => (mkError f.fname ("Cannot read"), st)
  | some fhash =>
    if skipCond st f fhash tier force then (mkSkipped f.fname, st)
    else
      match f.parseResult with
      | none => (mkError f.fname ("parse failed"), st)
      | some text =>
        if strTrim text == "" then (mkError f.fname ("empty content"), st)
        else
          if (split text).isEmpty then (mkError f.fname ("no chunks"), st)
          else
            ({ file := f.fname, status := .ingested, reason := none
               chunks := some (split text).length
               chars := some text.length
               tier := some tier },
             { entries := deleteFileChunks st.entries f.fname ++
                 newChunkEntries f tier fhash now (split text)
               documents := setKey st.documents f.fname
                 { sha256 := fhash, path := f.path
                   chunks := (split text).length
                   chars := text.length, tier := tier, ingested_at := now }
               stats := setKey st.stats tier (statsGet st.stats tier + 1)
               lastUpdated := some now })

/-- Per-tier document count as recomputed by DocumentMaster.status,
which iterates the document records and counts each tier. -/
def statusTierCount (st : EngineState) (t : String) : Nat :=
  (st.documents.filter (fun p => p.2.tier == t)).length

/-- Accumulated state of a running batch_ingest: the engine state, the
running stats counters, the completed-filename set of the checkpoint and
the recorded per-file errors. -/
structure BatchAcc where
  st : EngineState
  total : Nat
  ingested : Nat
  skipped : Nat
  errors : Nat
  resumedFrom : Nat
  completed : List String
  errorFiles : List (String × String)
deriving DecidableEq

/-- Set-style insertion used for completed.add(fname). -/
def addName (s : List String) (n : String) : List String :=
  if s.contains n then s else n :: s

/-- The stats and completed set at the start of a batch run, after the
checkpoint (if any) has been loaded. -/
def initAcc (total : Nat) (completed0 : List String) (st : EngineState) :
    BatchAcc :=
  { st := st, total := total, ingested := 0, skipped := 0, errors := 0
    resumedFrom := completed0.length, completed := completed0
    errorFiles := [] }

/-- One iteration of the batch_ingest loop: skip files already in the
completed set (unless force), otherwise ingest and classify the outcome,
then add the filename to the completed set. -/
def batchStep (split : String → List String) (now tier : String)
    (force : Bool) (acc : BatchAcc) (f : FileInput) : BatchAcc :=
  if acc.completed.contains f.fname && !force then
    { acc with skipped := acc.skipped + 1 }
  else if (ingestFile split now acc.st f tier force).1.status = .ingested then
    { acc with
      st := (ingestFile split now acc.st f tier force).2
      ingested := acc.ingested + 1
      completed := addName acc.completed f.fname }
  else if (ingestFile split now acc.st f tier force).1.status = .skipped then
    { acc with
      st := (ingestFile split now acc.st f tier force).2
      skipped := acc.skipped + 1
      completed := addName acc.completed f.fname }
  else
    { acc with
      st := (ingestFile split now acc.st f tier force).2
      errors := acc.errors + 1
      errorFiles := acc.errorFiles ++
        [(f.fname, (ingestFile split now acc.st f tier force).1.reason.getD ("?"))]
      completed := addName acc.completed f.fname }

/-- The main loop of batch_ingest over the collected file list. The
periodic checkpoint and index saves write the current accumulator to
disk and do not change it. -/
def batchRun (split : String → List String) (now tier : String)
    (force : Bool) (files : List FileInput) (acc : BatchAcc) : BatchAcc :=
  files.foldl (batchStep split now tier force) acc

/-- DocumentMaster.batch_ingest: none when the scan finds no supported
files, otherwise the fold over the files starting from the loaded
checkpoint (an empty completed set when force is requested). -/
def batchIngest (split : String → List String) (now : String)
    (files : List FileInput) (tier : String) (force : Bool)
    (completed0 : List String) (st : EngineState) : Option BatchAcc :=
  if files.isEmpty then none
  else some (batchRun split now tier force files
    (initAcc files.length (if force then [] else completed0) st))

/-- The process-wide tier weight table. -/
def TIER_WEIGHTS : List (String × ℚ) :=
  [("gold", 2), ("standard", 1), ("archive", 7/10)]

/-- TIER_WEIGHTS.get(tier, 1.0). -/
def tierWeight (t : String) : ℚ :=
  (getKey TIER_WEIGHTS t).getD 1

/-- The default top-k of search. -/
def TOP_K_RESULTS : Nat := 15

/-- One hit of the search result list. -/
structure SearchHit where
  text : String
  source_file : String
  source_path : String
  chunk_index : Nat
  tier : String
  score : ℚ
  raw_score : ℚ
deriving DecidableEq

/-- The where clause built by search from filter_file and tier,
as a predicate on entry metadata. -/
def matchesWhere (filterFile tierF : Option String) (e : ChunkEntry) :
    Bool :=
  (match filterFile with
   | some s => e.meta.source_file == s
   | none => true) &&
  (match tierF with
   | some t => e.meta.tier == t
   | none => true)

/-- Insertion into a list ranked by ascending distance, keeping earlier
elements ahead of equal-distance later ones. -/
def insertAsc (dist : ChunkEntry → ℚ) (e : ChunkEntry) :
    List ChunkEntry → List ChunkEntry
  | [] => [e]
  | x :: xs =>
      if dist x < dist e then x :: insertAsc dist e xs else e :: x :: xs

/-- Ranking of entries by ascending distance to the query. -/
def rankByDist (dist : ChunkEntry → ℚ) (l : List ChunkEntry) :
    List ChunkEntry :=
  l.foldr (insertAsc dist) []

/-- The external collection.query call: the backend returns the
n_results entries matching the where clause that are nearest to the
query embedding, in ascending distance order. -/
def chromaQuery (dist : ChunkEntry → ℚ) (entries : List ChunkEntry)
    (n : Nat) (filterFile tierF : Option String) : List ChunkEntry :=
  (rankByDist dist (entries.filter (matchesWhere filterFile tierF))).take n

/-- The hit dict built by search for one query result: similarity is
1 - distance, the final score multiplies it by the tier weight when
gold_boost is enabled. -/
def mkHit (goldBoost : Bool) (d : ℚ) (e : ChunkEntry) : SearchHit :=
  let similarity := 1 - d
  let weight := if goldBoost then tierWeight e.meta.tier else 1
  { text := e.document
    source_file := e.meta.source_file
    source_path := e.meta.source_path
    chunk_index := e.meta.chunk_index
    tier := e.meta.tier
    score := similarity * weight
    raw_score := similarity }

/-- Stable descending insertion by final score: the inserted hit goes
in front of the first existing hit whose score is not greater, so
earlier hits stay ahead of equal-score later ones. -/
def insertHitDesc (h : SearchHit) : List SearchHit → List SearchHit
  | [] => [h]
  | x :: xs =>
      if x.score > h.score then x :: insertHitDesc h xs else h :: x :: xs

/-- The stable reverse sort hits.sort(key=score, reverse=True). -/
def sortHitsDesc (l : List SearchHit) : List SearchHit :=
  l.foldr insertHitDesc []

/-- DocumentMaster.search: return [] on an empty collection, fetch
min(3 * n_results, count) candidates when gold_boost is enabled (or
min(n_results, count) otherwise), build tier-weighted hits, sort them
stably by descending final score and truncate to n_results. The
distance oracle models the embedding backend: it gives the distance of
each stored entry to the query text. -/
def search (dist : String → ChunkEntry → ℚ) (st : EngineState)
    (query : String) (nResults : Nat) (filterFile tierF : Option String)
    (goldBoost : Bool) : List SearchHit :=
  if st.entries.length = 0 then []
  else
    let fetchN := min (if goldBoost then nResults * 3 else nResults)
      st.entries.length
    let cands := chromaQuery (dist query) st.entries fetchN filterFile tierF
    let hits := cands.map (fun e => mkHit goldBoost (dist query e) e)
    (sortHitsDesc hits).take nResults

mutual
/-- A directory tree as the file system presents it to os.walk: each
directory lists its children in the order os.listdir returns them. -/
inductive FSEntry where
  | file (name : String)
  | dir (name : String) (children : FSList)

/-- The children listing of a directory, in os.listdir order. -/
inductive FSList where
  | nil
  | cons (head : FSEntry) (tail : FSList)
end

/-- Name of a tree entry. -/
def entryName : FSEntry → String
  | .file n => n
  | .dir n _ => n

/-- The supported extensions: the keys of the PARSERS table. -/
def PARSER_EXTS : List String :=
  [".pdf", ".docx", ".xlsx", ".xls", ".csv", ".tsv", ".txt", ".md",
   ".json"]

/-- Index of the last dot of a character list, if any. -/
def lastDot (cs : List Char) : Option Nat :=
  ((List.range cs.length).filter (fun i => cs.getD i ' ' == '.')).getLast?

/-- pathlib suffix of a file name: the part from the last dot on, empty
when there is no dot, the dot is the first character, or the dot is the
final character. -/
def pathSuffix (name : String) : String :=
  match lastDot name.data with
  | some i =>
      if 0 < i ∧ i < name.data.length - 1 then String.mk (name.data.drop i)
      else ""
  | none => ""

/-- Python str.lower(): every character lowercased. -/
def strLower (s : String) : String :=
  String.mk (s.data.map Char.toLower)

/-- The extension test of collect_files: suffix lowercased is a PARSERS
key. -/
def supportedName (name : String) : Bool :=
  PARSER_EXTS.contains (strLower (pathSuffix name))

/-- The hidden-name test d.startswith of the walk pruning: the first
character is a dot. -/
def hiddenName (s : String) : Bool :=
  match s.data with
  | [] => false
  | c :: _ => c == '.'

/-- Lexicographic comparison of character lists by code point, the
order Python uses on strings. -/
def listLtB : List Char → List Char → Bool
  | [], [] => false
  | [], _ :: _ => true
  | _ :: _, [] => false
  | a :: as, b :: bs =>
      if a < b then true else if b < a then false else listLtB as bs

/-- Lexicographic strict order on strings by code point. -/
def strLtB (a b : String) : Bool :=
  listLtB a.data b.data

/-- Ascending insertion for string sorting. -/
def insertStr (x : String) : List String → List String
  | [] => [x]
  | y :: ys => if strLtB y x then y :: insertStr x ys else x :: y :: ys

/-- Ascending string sort, modelling the Python sorted builtin. -/
def sortStrings (l : List String) : List String :=
  l.foldr insertStr []

/-- The plain file names among the children of a directory, in listdir
order. -/
def fileNames : FSList → List String
  | .nil => []
  | .cons (.file n) t => n :: fileNames t
  | .cons (.dir _ _) t => fileNames t

/-- The walk keeps an entry for descent when it is a directory whose
name does not start with a dot. -/
def isKeptDir : FSEntry → Bool
  | .file _ => false
  | .dir n _ => !hiddenName n

mutual
/-- The recursive walk of collect_files, generic in the treatment of
each directory file listing so that the source order (sorted names) and
the specification order (raw names) share one recursion. At each
directory the walk emits that directory listing (sorted by the source)
filtered to supported extensions, then descends into the non-hidden
subdirectories in listdir order. -/
def collectEnt (sorter : List String → List String) (e : FSEntry)
    (path : String) : List String :=
  match e with
  | .file _ => []
  | .dir _ children =>
      ((sorter (fileNames children)).filter supportedName).map
        (fun f => path ++ ("/") ++ f)
      ++ collectSubs sorter children path
termination_by structural e

/-- Descent step of the walk over a directory listing: recurse into
each non-hidden subdirectory in order, extending the path. -/
def collectSubs (sorter : List String → List String) (l : FSList)
    (path : String) : List String :=
  match l with
  | .nil => []
  | .cons e t =>
      (if isKeptDir e then collectEnt sorter e (path ++ ("/") ++ entryName e)
       else [])
      ++ collectSubs sorter t path
termination_by structural l
end

/-- collect_files in its recursive branch: walk the tree, sorting the
file names of each directory before filtering by extension. -/
def collect_files (e : FSEntry) (path : String) : List String :=
  collectEnt sortStrings e path

/-- Modelled from the spec: the files under the directory whose
extension is supported, excluding files inside hidden subdirectories,
listed in raw tree order. Used as the reference set for collect_files. -/
def eligibleFiles (e : FSEntry) (path : String) : List String :=
  collectEnt (fun l => l) e path

/-! Helper lemmas about the association maps. -/

theorem getKey_setKey_self {β : Type} (m : List (String × β)) (k : String)
    (v : β) : getKey (setKey m k v) k = some v := by
  induction m with
  | nil => simp [setKey, getKey]
  | cons p rest ih =>
    obtain ⟨k', v'⟩ := p
    by_cases h : k' = k
    · simp [setKey, h, getKey]
    · simp [setKey, h, getKey, ih]

/-! Concrete instances used by witnesses and counterexamples. -/

/-- A simple instance of the external text splitter. -/
def exSplit : String → List String := fun t => [t]

/-- First version of a source file. -/
def exFileA1 : FileInput :=
  { fname := "a.txt", path := "/d/a.txt", hashResult := some "h1"
    parseResult := some "hello one" }

/-- Second version of the same source file: changed bytes. -/
def exFileA2 : FileInput :=
  { fname := "a.txt", path := "/d/a.txt", hashResult := some "h2"
    parseResult := some "hello two" }

/-- A file whose bytes cannot be read. -/
def exUnreadable : FileInput :=
  { fname := "u.txt", path := "/u", hashResult := none
    parseResult := none }

/-- State after ingesting the first version of a.txt as gold. -/
def exState1 : EngineState :=
  (ingestFile exSplit "t1" initialState exFileA1 "gold" false).2

/-- State after then ingesting the second version of a.txt as gold. -/
def exState2 : EngineState :=
  (ingestFile exSplit "t2" exState1 exFileA2 "gold" false).2

/-! Inversion lemmas for ingest_file. -/

/-- When ingest_file reports ingested, the state components are exactly
the replace-and-add results built in the final branch. -/
theorem ingestFile_ingested_inv (split : String → List String)
    (now : String) (st : EngineState) (f : FileInput) (tier : String)
    (force : Bool) (r : IngestResult) (st' : EngineState)
    (h : ingestFile split now st f tier force = (r, st'))
    (hs : r.status = .ingested) :
    ∃ fhash text, f.hashResult = some fhash ∧ f.parseResult = some text ∧
      st' = { entries := deleteFileChunks st.entries f.fname ++
                newChunkEntries f tier fhash now (split text)
              documents := setKey st.documents f.fname
                { sha256 := fhash, path := f.path
                  chunks := (split text).length, chars := text.length
                  tier := tier, ingested_at := now }
              stats := setKey st.stats tier (statsGet st.stats tier + 1)
              lastUpdated := some now } := by
  unfold ingestFile at h
  split at h
  next =>
    injection h with h1 h2
    subst h1
    simp [mkError] at hs
  next fhash hh =>
    split at h
    next =>
      injection h with h1 h2
      subst h1
      simp [mkSkipped] at hs
    next hsk =>
      split at h
      next =>
        injection h with h1 h2
        subst h1
        simp [mkError] at hs
      next text hp =>
        split at h
        next =>
          injection h with h1 h2
          subst h1
          simp [mkError] at hs
        next htr =>
          split at h
          next =>
            injection h with h1 h2
            subst h1
            simp [mkError] at hs
          next hce =>
            injection h with h1 h2
            exact ⟨fhash, text, hh, hp, h2.symm⟩

/-- When ingest_file reports error, the state comes back unchanged. -/
theorem ingestFile_error_inv (split : String → List String)
    (now : String) (st : EngineState) (f : FileInput) (tier : String)
    (force : Bool) (r : IngestResult) (st' : EngineState)
    (h : ingestFile split now st f tier force = (r, st'))
    (hs : r.status = .error) : st' = st := by
  unfold ingestFile at h
  split at h
  next =>
    injection h with h1 h2
    exact h2.symm
  next fhash hh =>
    split at h
    next =>
      injection h with h1 h2
      subst h1
      simp [mkSkipped] at hs
    next hsk =>
      split at h
      next =>
        injection h with h1 h2
        exact h2.symm
      next text hp =>
        split at h
        next =>
          injection h with h1 h2
          exact h2.symm
        next htr =>
          split at h
          next =>
            injection h with h1 h2
            exact h2.symm
          next hce =>
            injection h with h1 h2
            subst h1
            simp at hs

/-- C10: whenever ingest_file returns a result with status error
(unreadable file, parse failure, empty content or zero chunks), the
document index and the collection are exactly as before the call:
every error return happens before any delete, add, or index mutation. -/
theorem ingest_error_preserves_state (split : String → List String)
    (now : String) (st : EngineState) (f : FileInput) (tier : String)
    (force : Bool)
    (h : (ingestFile split now st f tier force).1.status = .error) :
    (ingestFile split now st f tier force).2 = st :=
  ingestFile_error_inv split now st f tier force
    (ingestFile split now st f tier force).1
    (ingestFile split now st f tier force).2 rfl h

/-- C10 witness: an unreadable file errors and leaves the concrete
state after one ingestion untouched. -/
theorem ingest_error_preserves_state_witness :
    (ingestFile exSplit "t9" exState1 exUnreadable "gold" false).1.status
      = .error ∧
    (ingestFile exSplit "t9" exState1 exUnreadable "gold" false).2
      = exState1 :=
  ⟨by decide,
   ingest_error_preserves_state exSplit "t9" exState1 exUnreadable "gold"
     false (by decide)⟩

/-- C6: concrete evaluation of the tier counter slip. Re-ingesting
a.txt with changed bytes under the same gold tier leaves the stats
counter for gold at 2 while only one gold document is indexed: the code
increments the new tier counter without decrementing the replaced
record, so the counters count ingest events, not indexed documents. -/
theorem tier_counter_overcounts_on_replace :
    (ingestFile exSplit "t2" exState1 exFileA2 "gold" false).1.status
      = .ingested ∧
    statsGet exState2.stats "gold" = 2 ∧
    statusTierCount exState2 "gold" = 1 := by decide

/-- Membership in the pre-delete survivor list: the entry was already
stored and its source_file is not the ingested filename. -/
theorem mem_deleteFileChunks {e : ChunkEntry} {entries : List ChunkEntry}
    {fname : String} (h : e ∈ deleteFileChunks entries fname) :
    e ∈ entries ∧ e.meta.source_file ≠ fname := by
  by_cases hD : (delIdsOf entries fname).isEmpty
  · rw [deleteFileChunks, if_pos hD] at h
    refine ⟨h, fun hsrc => ?_⟩
    have hmem : e ∈ entries.filter
        (fun e2 => e2.meta.source_file == fname) :=
      List.mem_filter.mpr ⟨h, by simp [hsrc]⟩
    have : entries.filter (fun e2 => e2.meta.source_file == fname) = [] := by
      have := List.isEmpty_iff.mp hD
      simpa [delIdsOf] using this
    rw [this] at hmem
    exact absurd hmem (List.not_mem_nil e)
  · rw [deleteFileChunks, if_neg hD] at h
    obtain ⟨he, hc⟩ := List.mem_filter.mp h
    refine ⟨he, fun hsrc => ?_⟩
    have hid : e.id ∈ delIdsOf entries fname := by
      refine List.mem_map.mpr ⟨e, ?_, rfl⟩
      exact List.mem_filter.mpr ⟨he, by simp [hsrc]⟩
    simp [hid] at hc

/-- Every freshly added chunk entry carries the filename, the new hash,
the requested tier and the current timestamp. -/
theorem mem_newChunkEntries {e : ChunkEntry} {f : FileInput}
    {tier fhash now : String} {chunks : List String}
    (h : e ∈ newChunkEntries f tier fhash now chunks) :
    e.meta.source_file = f.fname ∧ e.meta.sha256 = fhash ∧
      e.meta.tier = tier ∧ e.meta.ingested_at = now := by
  unfold newChunkEntries at h
  obtain ⟨i, _, he⟩ := List.mem_map.mp h
  subst he
  exact ⟨rfl, rfl, rfl, rfl⟩

/-- C1: when re-ingesting a file returns ingested, the post state holds
no chunk for that filename other than the new version (same hash and
tier throughout), and every previously stored chunk of a different
version is gone from the collection: the pre-delete removes all chunk
ids recorded for the filename before the add. -/
theorem reingest_replaces_all_chunks (split : String → List String)
    (now : String) (st : EngineState) (f : FileInput) (tier : String)
    (force : Bool) (r : IngestResult) (st' : EngineState) (fhash : String)
    (hh : f.hashResult = some fhash)
    (h : ingestFile split now st f tier force = (r, st'))
    (hs : r.status = .ingested) :
    (∀ e ∈ st'.entries, e.meta.source_file = f.fname →
       e.meta.sha256 = fhash ∧ e.meta.tier = tier) ∧
    (∀ e ∈ st.entries, e.meta.source_file = f.fname →
       e.meta.sha256 ≠ fhash → e ∉ st'.entries) := by
  obtain ⟨fh2, text, hh2, hp, hst⟩ :=
    ingestFile_ingested_inv split now st f tier force r st' h hs
  rw [hh] at hh2
  injection hh2 with hh3
  subst hh3
  subst hst
  constructor
  · intro e he hsrc
    simp only [List.mem_append] at he
    cases he with
    | inl hdel => exact absurd hsrc (mem_deleteFileChunks hdel).2
    | inr hnew =>
      obtain ⟨_, h1, h2, _⟩ := mem_newChunkEntries hnew
      exact ⟨h1, h2⟩
  · intro e _ hsrc hsha hmem
    simp only [List.mem_append] at hmem
    cases hmem with
    | inl hdel => exact (mem_deleteFileChunks hdel).2 hsrc
    | inr hnew => exact hsha (mem_newChunkEntries hnew).2.1

/-- The chunk entry created by the first ingestion of a.txt. -/
def exOldChunk : ChunkEntry :=
  { id := "a.txt__chunk_0", document := "hello one"
    meta := { source_file := "a.txt", source_path := "/d/a.txt"
              chunk_index := 0, total_chunks := 1, sha256 := "h1"
              tier := "gold", ingested_at := "t1" } }

/-- C1 witness: re-ingesting a.txt with changed bytes removes the old
chunk stored under its old id and leaves only new-hash chunks. -/
theorem reingest_replaces_all_chunks_witness :
    exFileA2.hashResult = some "h2" ∧
    (ingestFile exSplit "t2" exState1 exFileA2 "gold" false).1.status
      = .ingested ∧
    exOldChunk ∈ exState1.entries ∧
    exOldChunk ∉
      (ingestFile exSplit "t2" exState1 exFileA2 "gold" false).2.entries :=
  ⟨rfl, by decide, by decide,
   (reingest_replaces_all_chunks exSplit "t2" exState1 exFileA2 "gold"
       false _ _ "h2" rfl rfl (by decide)).2 exOldChunk (by decide)
     (by decide) (by decide)⟩

/-- C2: a second call of ingest_file on the same file with force off,
unchanged hash and unchanged tier returns the skipped result and leaves
the whole engine state, hence the index and the chunk count, unchanged. -/
theorem ingest_unchanged_skips (split : String → List String)
    (now now2 : String) (st : EngineState) (f : FileInput) (tier : String)
    (force : Bool) (r : IngestResult) (st1 : EngineState)
    (h : ingestFile split now st f tier force = (r, st1))
    (hs : r.status = .ingested) :
    ingestFile split now2 st1 f tier false = (mkSkipped f.fname, st1) := by
  obtain ⟨fhash, text, hh, hp, hst⟩ :=
    ingestFile_ingested_inv split now st f tier force r st1 h hs
  have hdoc : getKey st1.documents f.fname = some
      { sha256 := fhash, path := f.path, chunks := (split text).length
        chars := text.length, tier := tier, ingested_at := now } := by
    rw [hst]
    exact getKey_setKey_self st.documents f.fname _
  have hskip : skipCond st1 f fhash tier false = true := by
    simp [skipCond, hdoc]
  unfold ingestFile
  rw [hh]
  simp [hskip]

/-- C2 witness: ingesting a.txt twice unmodified under the same tier
yields skipped the second time with the state unchanged. -/
theorem ingest_unchanged_skips_witness :
    (ingestFile exSplit "t1" initialState exFileA1 "gold" false).1.status
      = .ingested ∧
    ingestFile exSplit "t2" exState1 exFileA1 "gold" false
      = (mkSkipped "a.txt", exState1) :=
  ⟨by decide,
   ingest_unchanged_skips exSplit "t1" "t2" initialState exFileA1 "gold"
     false _ exState1 rfl (by decide)⟩

/-- C9: search on a store holding zero chunks returns the empty list,
for every query, result count, filter and boost setting. -/
theorem search_empty_store (dist : String → ChunkEntry → ℚ)
    (st : EngineState) (query : String) (nResults : Nat)
    (filterFile tierF : Option String) (goldBoost : Bool)
    (h : st.entries = []) :
    search dist st query nResults filterFile tierF goldBoost = [] := by
  simp [search, h]

/-- C9 witness: a concrete query against the empty initial store. -/
theorem search_empty_store_witness :
    initialState.entries = [] ∧
    search (fun _ _ => (1 : ℚ)/2) initialState "federal funding" 15 none
      (some "gold") true = [] :=
  ⟨rfl, search_empty_store _ _ _ _ _ _ _ rfl⟩

/-! Lemmas about the stable descending sort used by search. -/

/-- Inserting a hit permutes with consing it. -/
theorem insertHitDesc_perm (h : SearchHit) (l : List SearchHit) :
    (insertHitDesc h l).Perm (h :: l) := by
  induction l with
  | nil => simp [insertHitDesc]
  | cons x xs ih =>
    by_cases hx : x.score > h.score
    · rw [insertHitDesc, if_pos hx]
      exact (ih.cons x).trans (List.Perm.swap h x xs)
    · rw [insertHitDesc, if_neg hx]

/-- The stable sort is a permutation of its input. -/
theorem sortHitsDesc_perm (l : List SearchHit) :
    (sortHitsDesc l).Perm l := by
  induction l with
  | nil => simp [sortHitsDesc]
  | cons a t ih =>
    have : sortHitsDesc (a :: t) = insertHitDesc a (sortHitsDesc t) := rfl
    rw [this]
    exact (insertHitDesc_perm a (sortHitsDesc t)).trans (ih.cons a)

/-- Every hit returned by search is the hit record built from some
stored entry and its query distance. -/
theorem search_mem_mkHit {dist : String → ChunkEntry → ℚ}
    {st : EngineState} {q : String} {n : Nat} {ff tf : Option String}
    {b : Bool} {h : SearchHit} (hmem : h ∈ search dist st q n ff tf b) :
    ∃ e, h = mkHit b (dist q e) e := by
  unfold search at hmem
  by_cases h0 : st.entries.length = 0
  · simp [h0] at hmem
  · rw [if_neg h0] at hmem
    have h1 := List.mem_of_mem_take hmem
    have h2 := (sortHitsDesc_perm _).mem_iff.mp h1
    obtain ⟨e, _, he⟩ := List.mem_map.mp h2
    exact ⟨e, he.symm⟩

unseal Rat.mul Rat.sub Rat.inv in
/-- C3 (amended): every hit scores similarity times tier weight when
gold boosting is on and bare similarity otherwise, and of two hits with
identical strictly positive raw similarity the gold hit outranks the
archive hit strictly. At raw similarity zero the two final scores tie,
and the order reverses for negative similarity, so positivity is
required for strictness. -/
theorem search_tier_weighting (dist : String → ChunkEntry → ℚ)
    (st : EngineState) (q : String) (n : Nat) (ff tf : Option String) :
    (∀ b : Bool, ∀ h ∈ search dist st q n ff tf b,
       h.score = h.raw_score * (if b then tierWeight h.tier else 1)) ∧
    (∀ g a : SearchHit, g ∈ search dist st q n ff tf true →
       a ∈ search dist st q n ff tf true → g.tier = "gold" →
       a.tier = "archive" → g.raw_score = a.raw_score →
       0 < g.raw_score → a.score < g.score) := by
  have formula : ∀ b : Bool, ∀ h ∈ search dist st q n ff tf b,
      h.score = h.raw_score * (if b then tierWeight h.tier else 1) := by
    intro b h hmem
    obtain ⟨e, he⟩ := search_mem_mkHit hmem
    subst he
    simp [mkHit]
  refine ⟨formula, ?_⟩
  intro g a hg ha hgt hat hraw hpos
  have hgs := formula true g hg
  have has := formula true a ha
  rw [hgt] at hgs
  rw [hat] at has
  have hwg : tierWeight "gold" = 2 := by decide
  have hwa : tierWeight "archive" = 7/10 := by decide
  rw [if_pos rfl, hwg] at hgs
  rw [if_pos rfl, hwa] at has
  rw [hgs, has, ← hraw]
  have : (7 : ℚ)/10 < 2 := by norm_num
  exact mul_lt_mul_of_pos_left this hpos

/-- A stored gold-tier chunk. -/
def exGoldEntry : ChunkEntry :=
  { id := "g.txt__chunk_0", document := "gold text"
    meta := { source_file := "g.txt", source_path := "/g"
              chunk_index := 0, total_chunks := 1, sha256 := "hg"
              tier := "gold", ingested_at := "t" } }

/-- A stored archive-tier chunk. -/
def exArchEntry : ChunkEntry :=
  { id := "r.txt__chunk_0", document := "arch text"
    meta := { source_file := "r.txt", source_path := "/r"
              chunk_index := 0, total_chunks := 1, sha256 := "hr"
              tier := "archive", ingested_at := "t" } }

/-- A store holding one gold and one archive chunk. -/
def exStoreTwo : EngineState :=
  { entries := [exGoldEntry, exArchEntry], documents := []
    stats := [], lastUpdated := none }

unseal Rat.mul Rat.sub Rat.inv in
/-- C3 counterexample: with both raw similarities equal to zero
(distance one), the gold hit and the archive hit receive the same final
score, so the claimed strict inequality fails as universally stated. -/
theorem gold_tie_not_strict_at_zero_similarity :
    (search (fun _ _ => (1 : ℚ)) exStoreTwo "q" 5 none none true).length
      = 2 ∧
    (∀ h ∈ search (fun _ _ => (1 : ℚ)) exStoreTwo "q" 5 none none true,
      h.score = 0 ∧ h.raw_score = 0) ∧
    (∃ g ∈ search (fun _ _ => (1 : ℚ)) exStoreTwo "q" 5 none none true,
      g.tier = "gold") ∧
    (∃ a ∈ search (fun _ _ => (1 : ℚ)) exStoreTwo "q" 5 none none true,
      a.tier = "archive") := by decide

unseal Rat.mul Rat.sub Rat.inv in
/-- C3 witness: at raw similarity one half the gold hit strictly
outranks the archive hit, via the amended theorem. -/
theorem search_tier_weighting_witness :
    mkHit true ((1 : ℚ)/2) exGoldEntry ∈
      search (fun _ _ => (1 : ℚ)/2) exStoreTwo "q" 5 none none true ∧
    mkHit true ((1 : ℚ)/2) exArchEntry ∈
      search (fun _ _ => (1 : ℚ)/2) exStoreTwo "q" 5 none none true ∧
    (mkHit true ((1 : ℚ)/2) exArchEntry).score <
      (mkHit true ((1 : ℚ)/2) exGoldEntry).score :=
  ⟨by decide, by decide,
   (search_tier_weighting (fun _ _ => (1 : ℚ)/2) exStoreTwo "q" 5 none
       none).2 _ _ (by decide) (by decide) (by decide) (by decide)
     (by decide) (by decide)⟩

/-! Lemmas for the file-collection walk. -/

/-- Inserting a string permutes with consing it. -/
theorem insertStr_perm (x : String) (l : List String) :
    (insertStr x l).Perm (x :: l) := by
  induction l with
  | nil => simp [insertStr]
  | cons y ys ih =>
    by_cases hy : strLtB y x = true
    · rw [insertStr, if_pos hy]
      exact (ih.cons y).trans (List.Perm.swap x y ys)
    · rw [insertStr, if_neg hy]

/-- The string sort is a permutation of its input. -/
theorem sortStrings_perm (l : List String) :
    (sortStrings l).Perm l := by
  induction l with
  | nil => simp [sortStrings]
  | cons a t ih =>
    have heq : sortStrings (a :: t) = insertStr a (sortStrings t) := rfl
    rw [heq]
    exact (insertStr_perm a (sortStrings t)).trans (ih.cons a)

mutual
/-- The walk with a permuting directory-listing transformation returns
a permutation of the raw-order walk: sorting each listing changes only
the order of the emitted files, never the set. -/
theorem collectEnt_perm (sorter : List String → List String)
    (hs : ∀ l, (sorter l).Perm l) (e : FSEntry) (path : String) :
    (collectEnt sorter e path).Perm (collectEnt (fun l => l) e path) := by
  cases e with
  | file n => exact List.Perm.refl _
  | dir n children =>
    rw [collectEnt, collectEnt]
    exact List.Perm.append (((hs (fileNames children)).filter _).map _)
      (collectSubs_perm sorter hs children path)
termination_by structural e

/-- Companion of collectEnt_perm for directory listings. -/
theorem collectSubs_perm (sorter : List String → List String)
    (hs : ∀ l, (sorter l).Perm l) (l : FSList) (path : String) :
    (collectSubs sorter l path).Perm (collectSubs (fun l => l) l path) := by
  cases l with
  | nil => exact List.Perm.refl _
  | cons e t =>
    rw [collectSubs, collectSubs]
    apply List.Perm.append
    · by_cases hk : isKeptDir e = true
      · rw [if_pos hk, if_pos hk]
        exact collectEnt_perm sorter hs e _
      · rw [if_neg hk, if_neg hk]
    · exact collectSubs_perm sorter hs t path
termination_by structural l
end

/-- C7 (amended): the recursive enumeration returns exactly the
supported-extension files outside hidden subdirectories (a permutation
of the reference set), with each directory listing visited in sorted
order; but the overall sequence follows os.walk order, a directory
before its subdirectories and subdirectories in listdir order, not
global lexicographic path order. -/
theorem collect_files_exact_set (e : FSEntry) (path : String) :
    (collect_files e path).Perm (eligibleFiles e path) :=
  collectEnt_perm sortStrings sortStrings_perm e path

/-- A directory holding a subdirectory a (with a supported file), a
supported root file b.txt, a hidden subdirectory and an unsupported
file. -/
def exWalkTree : FSEntry :=
  .dir "root" (.cons (.dir "a" (.cons (.file "x.txt") .nil))
    (.cons (.file "b.txt")
      (.cons (.dir ".hid" (.cons (.file "h.txt") .nil))
        (.cons (.file "c.bin") .nil))))

/-- C7 counterexample: the walk lists the root file r/b.txt before the
subdirectory file r/a/x.txt, while lexicographic path order puts
r/a/x.txt first: the returned list is not sorted in lexicographic path
order. -/
theorem collect_files_not_lexicographic :
    collect_files exWalkTree "r" = ["r/b.txt", "r/a/x.txt"] ∧
    sortStrings (collect_files exWalkTree "r")
      = ["r/a/x.txt", "r/b.txt"] ∧
    collect_files exWalkTree "r"
      ≠ sortStrings (collect_files exWalkTree "r") := by decide

/-! Lemmas for batch ingestion. -/

/-- The completed set test of the loop agrees with membership. -/
theorem contains_eq_mem (s : List String) (n : String) :
    s.contains n = true ↔ n ∈ s := by
  simp [List.contains, List.elem_iff]

/-- Membership after completed.add. -/
theorem mem_addName (s : List String) (n x : String) :
    x ∈ addName s n ↔ x = n ∨ x ∈ s := by
  unfold addName
  by_cases hc : s.contains n = true
  · rw [if_pos hc]
    have hn := (contains_eq_mem s n).mp hc
    constructor
    · exact fun h => Or.inr h
    · intro h
      cases h with
      | inl h => exact h ▸ hn
      | inr h => exact h
  · rw [if_neg hc]
    simp [List.mem_cons]

/-- Each batch iteration classifies its file exactly once: the three
counters together grow by one per file. -/
theorem batchStep_sum (split : String → List String) (now tier : String)
    (force : Bool) (acc : BatchAcc) (f : FileInput) :
    (batchStep split now tier force acc f).ingested +
      (batchStep split now tier force acc f).skipped +
      (batchStep split now tier force acc f).errors =
    acc.ingested + acc.skipped + acc.errors + 1 := by
  unfold batchStep
  split_ifs <;> simp <;> omega

/-- The whole batch loop classifies every file exactly once. -/
theorem batchRun_sum (split : String → List String) (now tier : String)
    (force : Bool) (files : List FileInput) (acc : BatchAcc) :
    (batchRun split now tier force files acc).ingested +
      (batchRun split now tier force files acc).skipped +
      (batchRun split now tier force files acc).errors =
    acc.ingested + acc.skipped + acc.errors + files.length := by
  induction files generalizing acc with
  | nil => simp [batchRun]
  | cons f t ih =>
    have hrun : batchRun split now tier force (f :: t) acc =
        batchRun split now tier force t (batchStep split now tier force acc f) :=
      rfl
    rw [hrun, ih, batchStep_sum]
    simp [List.length_cons]
    omega

/-- The completed set after one iteration: the old set plus the file
name. -/
theorem batchStep_completed_mem (split : String → List String)
    (now tier : String) (force : Bool) (acc : BatchAcc) (f : FileInput)
    (x : String) :
    x ∈ (batchStep split now tier force acc f).completed ↔
      x = f.fname ∨ x ∈ acc.completed := by
  unfold batchStep
  split_ifs with h1 h2 h3
  · have hn : f.fname ∈ acc.completed :=
      (contains_eq_mem _ _).mp (Bool.and_elim_left h1)
    simp only []
    constructor
    · exact fun h => Or.inr h
    · intro h
      cases h with
      | inl h => exact h ▸ hn
      | inr h => exact h
  all_goals simpa using mem_addName acc.completed f.fname x

/-- The completed set after a run: the old set plus every visited file
name. -/
theorem batchRun_completed_mem (split : String → List String)
    (now tier : String) (force : Bool) (files : List FileInput)
    (acc : BatchAcc) (x : String) :
    x ∈ (batchRun split now tier force files acc).completed ↔
      x ∈ acc.completed ∨ x ∈ files.map (fun f => f.fname) := by
  induction files generalizing acc with
  | nil => simp [batchRun]
  | cons f t ih =>
    have hrun : batchRun split now tier force (f :: t) acc =
        batchRun split now tier force t (batchStep split now tier force acc f) :=
      rfl
    rw [hrun, ih, batchStep_completed_mem]
    simp [List.mem_cons]
    tauto

/-- Error counters never shrink during a run. -/
theorem batchRun_errors_mono (split : String → List String)
    (now tier : String) (force : Bool) (files : List FileInput)
    (acc : BatchAcc) :
    acc.errors ≤ (batchRun split now tier force files acc).errors := by
  induction files generalizing acc with
  | nil => simp [batchRun]
  | cons f t ih =>
    have hrun : batchRun split now tier force (f :: t) acc =
        batchRun split now tier force t (batchStep split now tier force acc f) :=
      rfl
    rw [hrun]
    refine le_trans ?_ (ih (batchStep split now tier force acc f))
    unfold batchStep
    split_ifs <;> simp

/-- Recorded error files are never dropped during a run. -/
theorem batchRun_errorFiles_mono (split : String → List String)
    (now tier : String) (force : Bool) (files : List FileInput)
    (acc : BatchAcc) (e : String × String) (h : e ∈ acc.errorFiles) :
    e ∈ (batchRun split now tier force files acc).errorFiles := by
  induction files generalizing acc with
  | nil => simpa [batchRun] using h
  | cons f t ih =>
    have hrun : batchRun split now tier force (f :: t) acc =
        batchRun split now tier force t (batchStep split now tier force acc f) :=
      rfl
    rw [hrun]
    apply ih
    unfold batchStep
    split_ifs <;> simp [h]

/-- A file already recorded in the completed checkpoint is skipped
without touching the engine: only the skipped counter moves. -/
theorem batchStep_skip (split : String → List String) (now tier : String)
    (acc : BatchAcc) (f : FileInput) (h : f.fname ∈ acc.completed) :
    batchStep split now tier false acc f =
      { acc with skipped := acc.skipped + 1 } := by
  unfold batchStep
  rw [if_pos]
  simp [contains_eq_mem, h]

/-- A run over files that are all in the completed checkpoint only
bumps the skipped counter by their number. -/
theorem batchRun_skip_all (split : String → List String)
    (now tier : String) (files : List FileInput) (acc : BatchAcc)
    (h : ∀ f ∈ files, f.fname ∈ acc.completed) :
    batchRun split now tier false files acc =
      { acc with skipped := acc.skipped + files.length } := by
  induction files generalizing acc with
  | nil => simp [batchRun]
  | cons f t ih =>
    have hrun : batchRun split now tier false (f :: t) acc =
        batchRun split now tier false t (batchStep split now tier false acc f) :=
      rfl
    rw [hrun, batchStep_skip split now tier acc f (h f (by simp))]
    rw [ih]
    · simp [List.length_cons]
      omega
    · intro g hg
      exact h g (by simp [hg])

/-- One iteration on a fresh file whose ingestion succeeds. -/
theorem batchStep_fresh_ingested (split : String → List String)
    (now tier : String) (acc : BatchAcc) (f : FileInput)
    (hc : acc.completed.contains f.fname = false)
    (hi : (ingestFile split now acc.st f tier false).1.status = .ingested) :
    batchStep split now tier false acc f =
      { acc with
        st := (ingestFile split now acc.st f tier false).2
        ingested := acc.ingested + 1
        completed := addName acc.completed f.fname } := by
  unfold batchStep
  rw [hc]
  simp [hi]

/-- One iteration on a fresh file whose ingestion is hash-skipped. -/
theorem batchStep_fresh_skipped (split : String → List String)
    (now tier : String) (acc : BatchAcc) (f : FileInput)
    (hc : acc.completed.contains f.fname = false)
    (hi : (ingestFile split now acc.st f tier false).1.status = .skipped) :
    batchStep split now tier false acc f =
      { acc with
        st := (ingestFile split now acc.st f tier false).2
        skipped := acc.skipped + 1
        completed := addName acc.completed f.fname } := by
  unfold batchStep
  rw [hc]
  simp [hi]

/-- One iteration on a fresh file whose ingestion errors. -/
theorem batchStep_fresh_error (split : String → List String)
    (now tier : String) (acc : BatchAcc) (f : FileInput)
    (hc : acc.completed.contains f.fname = false)
    (hi : (ingestFile split now acc.st f tier false).1.status = .error) :
    batchStep split now tier false acc f =
      { acc with
        st := (ingestFile split now acc.st f tier false).2
        errors := acc.errors + 1
        errorFiles := acc.errorFiles ++
          [(f.fname,
            (ingestFile split now acc.st f tier false).1.reason.getD ("?"))]
        completed := addName acc.completed f.fname } := by
  unfold batchStep
  rw [hc]
  simp [hi]

/-- Two batch runs over the same fresh files from the same engine state
finish with the same engine state and the same counter increments, no
matter how their checkpoints and counters differ otherwise. -/
theorem batchRun_agree (split : String → List String) (now tier : String)
    (files : List FileInput) (acc acc' : BatchAcc)
    (hst : acc.st = acc'.st)
    (hnd : (files.map (fun f => f.fname)).Nodup)
    (hfresh : ∀ f ∈ files, f.fname ∉ acc.completed)
    (hfresh' : ∀ f ∈ files, f.fname ∉ acc'.completed) :
    (batchRun split now tier false files acc).st =
      (batchRun split now tier false files acc').st ∧
    (batchRun split now tier false files acc).ingested + acc'.ingested =
      (batchRun split now tier false files acc').ingested + acc.ingested ∧
    (batchRun split now tier false files acc).skipped + acc'.skipped =
      (batchRun split now tier false files acc').skipped + acc.skipped ∧
    (batchRun split now tier false files acc).errors + acc'.errors =
      (batchRun split now tier false files acc').errors + acc.errors := by
  induction files generalizing acc acc' with
  | nil =>
    simp only [batchRun, List.foldl_nil]
    exact ⟨hst, by omega, by omega, by omega⟩
  | cons f t ih =>
    have hfn : f.fname ∉ acc.completed := hfresh f (by simp)
    have hfn' : f.fname ∉ acc'.completed := hfresh' f (by simp)
    have hc : acc.completed.contains f.fname = false := by
      rw [← Bool.not_eq_true]
      exact fun hh => hfn ((contains_eq_mem _ _).mp hh)
    have hc' : acc'.completed.contains f.fname = false := by
      rw [← Bool.not_eq_true]
      exact fun hh => hfn' ((contains_eq_mem _ _).mp hh)
    have hndt : (t.map (fun g => g.fname)).Nodup :=
      (List.nodup_cons.mp (by simpa using hnd)).2
    have hfnt : f.fname ∉ t.map (fun g => g.fname) :=
      (List.nodup_cons.mp (by simpa using hnd)).1
    have hfresht : ∀ g ∈ t, g.fname ∉ addName acc.completed f.fname := by
      intro g hg hmem
      cases (mem_addName _ _ _).mp hmem with
      | inl h => exact hfnt (h ▸ List.mem_map_of_mem (fun x => x.fname) hg)
      | inr h => exact hfresh g (by simp [hg]) h
    have hfresht' : ∀ g ∈ t, g.fname ∉ addName acc'.completed f.fname := by
      intro g hg hmem
      cases (mem_addName _ _ _).mp hmem with
      | inl h => exact hfnt (h ▸ List.mem_map_of_mem (fun x => x.fname) hg)
      | inr h => exact hfresh' g (by simp [hg]) h
    have hrun : ∀ b : BatchAcc, batchRun split now tier false (f :: t) b =
        batchRun split now tier false t (batchStep split now tier false b f) :=
      fun b => rfl
    rw [hrun acc, hrun acc']
    cases hi : (ingestFile split now acc.st f tier false).1.status with
    | ingested =>
      have hi' : (ingestFile split now acc'.st f tier false).1.status
          = .ingested := by rw [← hst]; exact hi
      rw [batchStep_fresh_ingested split now tier acc f hc hi]
      rw [batchStep_fresh_ingested split now tier acc' f hc' hi']
      have hkey := ih
        { acc with
          st := (ingestFile split now acc.st f tier false).2
          ingested := acc.ingested + 1
          completed := addName acc.completed f.fname }
        { acc' with
          st := (ingestFile split now acc'.st f tier false).2
          ingested := acc'.ingested + 1
          completed := addName acc'.completed f.fname }
        (by dsimp only; rw [← hst]) hndt hfresht hfresht'
      obtain ⟨e1, e2, e3, e4⟩ := hkey
      dsimp only at e2 e3 e4
      exact ⟨e1, by omega, by omega, by omega⟩
    | skipped =>
      have hi' : (ingestFile split now acc'.st f tier false).1.status
          = .skipped := by rw [← hst]; exact hi
      rw [batchStep_fresh_skipped split now tier acc f hc hi]
      rw [batchStep_fresh_skipped split now tier acc' f hc' hi']
      have hkey := ih
        { acc with
          st := (ingestFile split now acc.st f tier false).2
          skipped := acc.skipped + 1
          completed := addName acc.completed f.fname }
        { acc' with
          st := (ingestFile split now acc'.st f tier false).2
          skipped := acc'.skipped + 1
          completed := addName acc'.completed f.fname }
        (by dsimp only; rw [← hst]) hndt hfresht hfresht'
      obtain ⟨e1, e2, e3, e4⟩ := hkey
      dsimp only at e2 e3 e4
      exact ⟨e1, by omega, by omega, by omega⟩
    | error =>
      have hi' : (ingestFile split now acc'.st f tier false).1.status
          = .error := by rw [← hst]; exact hi
      rw [batchStep_fresh_error split now tier acc f hc hi]
      rw [batchStep_fresh_error split now tier acc' f hc' hi']
      have hkey := ih
        { acc with
          st := (ingestFile split now acc.st f tier false).2
          errors := acc.errors + 1
          errorFiles := acc.errorFiles ++
            [(f.fname,
              (ingestFile split now acc.st f tier false).1.reason.getD ("?"))]
          completed := addName acc.completed f.fname }
        { acc' with
          st := (ingestFile split now acc'.st f tier false).2
          errors := acc'.errors + 1
          errorFiles := acc'.errorFiles ++
            [(f.fname,
              (ingestFile split now acc'.st f tier false).1.reason.getD ("?"))]
          completed := addName acc'.completed f.fname }
        (by dsimp only; rw [← hst]) hndt hfresht hfresht'
      obtain ⟨e1, e2, e3, e4⟩ := hkey
      dsimp only at e2 e3 e4
      exact ⟨e1, by omega, by omega, by omega⟩

/-- C4 (amended): a file whose ingestion fails is recorded as an error
and the batch continues, every file of the run still being classified
exactly once; however the failing file IS added to the completed set of
the checkpoint, so a later batch run without force skips it instead of
retrying it. -/
theorem batch_error_recorded_not_retried (split : String → List String)
    (now tier : String) (f : FileInput) (rest : List FileInput)
    (acc : BatchAcc) (hfn : f.fname ∉ acc.completed)
    (herr : (ingestFile split now acc.st f tier false).1.status = .error) :
    f.fname ∈ (batchRun split now tier false (f :: rest) acc).completed ∧
    (batchRun split now tier false (f :: rest) acc).ingested +
      (batchRun split now tier false (f :: rest) acc).skipped +
      (batchRun split now tier false (f :: rest) acc).errors =
      acc.ingested + acc.skipped + acc.errors + (rest.length + 1) ∧
    acc.errors + 1 ≤ (batchRun split now tier false (f :: rest) acc).errors ∧
    (f.fname, (ingestFile split now acc.st f tier false).1.reason.getD ("?"))
      ∈ (batchRun split now tier false (f :: rest) acc).errorFiles ∧
    (∀ acc2 : BatchAcc, f.fname ∈ acc2.completed →
      batchStep split now tier false acc2 f =
        { acc2 with skipped := acc2.skipped + 1 }) := by
  have hc : acc.completed.contains f.fname = false := by
    rw [← Bool.not_eq_true]
    exact fun hh => hfn ((contains_eq_mem _ _).mp hh)
  have hstep := batchStep_fresh_error split now tier acc f hc herr
  have hrun : batchRun split now tier false (f :: rest) acc =
      batchRun split now tier false rest (batchStep split now tier false acc f) :=
    rfl
  refine ⟨?_, ?_, ?_, ?_, ?_⟩
  · exact (batchRun_completed_mem split now tier false (f :: rest) acc
      f.fname).mpr (Or.inr (by simp))
  · rw [batchRun_sum]
    simp
  · rw [hrun, hstep]
    refine le_trans ?_ (batchRun_errors_mono split now tier false rest _)
    dsimp only
    omega
  · rw [hrun, hstep]
    apply batchRun_errorFiles_mono
    simp
  · exact fun acc2 h2 => batchStep_skip split now tier acc2 f h2

/-- A file whose parse raises, as a batch member. -/
def exBadFile : FileInput :=
  { fname := "bad.txt", path := "/d/bad.txt", hashResult := some "hb"
    parseResult := none }

/-- First batch run over the corrupt file, from a fresh checkpoint. -/
def exBatch1 : BatchAcc :=
  batchRun exSplit "t1" "archive" false [exBadFile]
    (initAcc 1 [] initialState)

/-- Second batch run, resuming from the first checkpoint. -/
def exBatch2 : BatchAcc :=
  batchRun exSplit "t2" "archive" false [exBadFile]
    (initAcc 1 exBatch1.completed initialState)

/-- C4 counterexample: the failing file lands in the completed set of
the checkpoint, and the next run merely counts it as skipped without
attempting ingestion, so it is not retried as the claim states. -/
theorem batch_error_file_marked_completed :
    exBatch1.errors = 1 ∧
    "bad.txt" ∈ exBatch1.completed ∧
    exBatch2.skipped = 1 ∧
    exBatch2.errors = 0 ∧
    exBatch2.ingested = 0 ∧
    exBatch2.st = initialState := by decide

/-- C4 witness: the amended theorem applied to the corrupt file. -/
theorem batch_error_recorded_not_retried_witness :
    exBadFile.fname ∉ (initAcc 1 [] initialState).completed ∧
    (ingestFile exSplit "t1" (initAcc 1 [] initialState).st exBadFile
      "archive" false).1.status = .error ∧
    exBadFile.fname ∈
      (batchRun exSplit "t1" "archive" false [exBadFile]
        (initAcc 1 [] initialState)).completed ∧
    batchStep exSplit "t2" "archive" false
        (initAcc 1 ["bad.txt"] initialState) exBadFile =
      { initAcc 1 ["bad.txt"] initialState with
        skipped := (initAcc 1 ["bad.txt"] initialState).skipped + 1 } :=
  ⟨by decide, by decide,
   (batch_error_recorded_not_retried exSplit "t1" "archive" exBadFile []
       (initAcc 1 [] initialState) (by decide) (by decide)).1,
   (batch_error_recorded_not_retried exSplit "t2" "archive" exBadFile []
       (initAcc 1 [] initialState) (by decide) (by decide)).2.2.2.2
     (initAcc 1 ["bad.txt"] initialState) (by decide)⟩

/-- The completed-filename set a checkpoint holds after the first N
files of a run have been processed. -/
def resumeNames (files : List FileInput) (N : Nat) : List String :=
  (files.take N).map (fun f => f.fname)

/-- The batch state at the moment of interruption: the fold over the
first N files starting from a fresh checkpoint. -/
def checkpointAfter (split : String → List String) (now tier : String)
    (files : List FileInput) (st0 : EngineState) (N : Nat) : BatchAcc :=
  batchRun split now tier false (files.take N)
    (initAcc files.length [] st0)

/-- C5 (amended): restarting an interrupted batch without force skips
exactly the N checkpointed files (only the skipped counter moves while
they are replayed, the engine untouched) and processes the remainder
exactly as the uninterrupted run would: the final engine states agree
and the combined processed totals agree; but the restarted run counts
the N completed files as skipped rather than ingested, so the
individual counters relate by ingested and errors splitting across the
two runs and skipped exceeding the from-scratch count by N. -/
theorem batch_resume_matches_scratch (split : String → List String)
    (now tier : String) (files : List FileInput) (st0 : EngineState)
    (N : Nat) (hN : N ≤ files.length)
    (hnd : (files.map (fun f => f.fname)).Nodup) :
    batchRun split now tier false (files.take N)
        (initAcc files.length (resumeNames files N)
          (checkpointAfter split now tier files st0 N).st) =
      { initAcc files.length (resumeNames files N)
          (checkpointAfter split now tier files st0 N).st with
        skipped := N } ∧
    (batchRun split now tier false files
        (initAcc files.length (resumeNames files N)
          (checkpointAfter split now tier files st0 N).st)).st =
      (batchRun split now tier false files
        (initAcc files.length [] st0)).st ∧
    (batchRun split now tier false files
        (initAcc files.length (resumeNames files N)
          (checkpointAfter split now tier files st0 N).st)).ingested +
      (batchRun split now tier false files
        (initAcc files.length (resumeNames files N)
          (checkpointAfter split now tier files st0 N).st)).skipped +
      (batchRun split now tier false files
        (initAcc files.length (resumeNames files N)
          (checkpointAfter split now tier files st0 N).st)).errors =
      (batchRun split now tier false files
        (initAcc files.length [] st0)).ingested +
      (batchRun split now tier false files
        (initAcc files.length [] st0)).skipped +
      (batchRun split now tier false files
        (initAcc files.length [] st0)).errors ∧
    (batchRun split now tier false files
        (initAcc files.length [] st0)).ingested =
      (batchRun split now tier false files
        (initAcc files.length (resumeNames files N)
          (checkpointAfter split now tier files st0 N).st)).ingested +
      (checkpointAfter split now tier files st0 N).ingested ∧
    (batchRun split now tier false files
        (initAcc files.length [] st0)).skipped + N =
      (batchRun split now tier false files
        (initAcc files.length (resumeNames files N)
          (checkpointAfter split now tier files st0 N).st)).skipped +
      (checkpointAfter split now tier files st0 N).skipped ∧
    (batchRun split now tier false files
        (initAcc files.length [] st0)).errors =
      (batchRun split now tier false files
        (initAcc files.length (resumeNames files N)
          (checkpointAfter split now tier files st0 N).st)).errors +
      (checkpointAfter split now tier files st0 N).errors := by
  have hlen : (files.take N).length = N := by
    rw [List.length_take]
    omega
  have hmapsplit : files.map (fun f => f.fname) =
      (files.take N).map (fun f => f.fname) ++
      (files.drop N).map (fun f => f.fname) := by
    rw [← List.map_append, List.take_append_drop]
  have hnd2 := hnd
  rw [hmapsplit] at hnd2
  obtain ⟨hndTake, hndDrop, hdisj⟩ := List.nodup_append.mp hnd2
  have hskipAll : batchRun split now tier false (files.take N)
      (initAcc files.length (resumeNames files N)
        (checkpointAfter split now tier files st0 N).st) =
      { initAcc files.length (resumeNames files N)
          (checkpointAfter split now tier files st0 N).st with
        skipped := N } := by
    have h := batchRun_skip_all split now tier (files.take N)
      (initAcc files.length (resumeNames files N)
        (checkpointAfter split now tier files st0 N).st)
      (fun g hg => List.mem_map_of_mem (fun x => x.fname) hg)
    rw [h, hlen]
    simp [initAcc]
  have hsplitRun : ∀ acc : BatchAcc,
      batchRun split now tier false files acc =
      batchRun split now tier false (files.drop N)
        (batchRun split now tier false (files.take N) acc) := by
    intro acc
    conv_lhs => rw [← List.take_append_drop N files]
    unfold batchRun
    rw [List.foldl_append]
  have hscr : batchRun split now tier false files
      (initAcc files.length [] st0) =
      batchRun split now tier false (files.drop N)
        (checkpointAfter split now tier files st0 N) := by
    rw [hsplitRun]
    rfl
  have hres : batchRun split now tier false files
      (initAcc files.length (resumeNames files N)
        (checkpointAfter split now tier files st0 N).st) =
      batchRun split now tier false (files.drop N)
        { initAcc files.length (resumeNames files N)
            (checkpointAfter split now tier files st0 N).st with
          skipped := N } := by
    rw [hsplitRun, hskipAll]
  have hCmem : ∀ x, x ∈ (checkpointAfter split now tier files st0 N).completed
      ↔ x ∈ resumeNames files N := by
    intro x
    unfold checkpointAfter
    rw [batchRun_completed_mem]
    simp [initAcc, resumeNames]
  have hfreshC : ∀ g ∈ files.drop N,
      g.fname ∉ (checkpointAfter split now tier files st0 N).completed := by
    intro g hg hmem
    exact hdisj ((hCmem g.fname).mp hmem)
      (List.mem_map_of_mem (fun x => x.fname) hg)
  have hfreshB : ∀ g ∈ files.drop N,
      g.fname ∉ ({ initAcc files.length (resumeNames files N)
          (checkpointAfter split now tier files st0 N).st with
        skipped := N } : BatchAcc).completed := by
    intro g hg hmem
    exact hdisj hmem (List.mem_map_of_mem (fun x => x.fname) hg)
  obtain ⟨e1, e2, e3, e4⟩ := batchRun_agree split now tier (files.drop N)
    (checkpointAfter split now tier files st0 N)
    { initAcc files.length (resumeNames files N)
        (checkpointAfter split now tier files st0 N).st with
      skipped := N }
    rfl hndDrop hfreshC hfreshB
  have s1 := batchRun_sum split now tier false (files.drop N)
    (checkpointAfter split now tier files st0 N)
  have s2 := batchRun_sum split now tier false (files.drop N)
    { initAcc files.length (resumeNames files N)
        (checkpointAfter split now tier files st0 N).st with
      skipped := N }
  have hCsum : (checkpointAfter split now tier files st0 N).ingested +
      (checkpointAfter split now tier files st0 N).skipped +
      (checkpointAfter split now tier files st0 N).errors = N := by
    unfold checkpointAfter
    rw [batchRun_sum]
    dsimp only [initAcc]
    omega
  rw [hres, hscr]
  dsimp only [initAcc] at e1 e2 e3 e4 s2 ⊢
  dsimp only [initAcc] at hskipAll
  refine ⟨hskipAll, e1.symm, by omega, by omega, by omega, by omega⟩

/-- A well-formed file for batch runs. -/
def exGoodFileA : FileInput :=
  { fname := "g.txt", path := "/d/g.txt", hashResult := some "hg"
    parseResult := some "text here" }

/-- A second distinct well-formed file. -/
def exGoodFileB : FileInput :=
  { fname := "h.txt", path := "/d/h.txt", hashResult := some "hh"
    parseResult := some "more text" }

/-- A two-file batch directory. -/
def exFilesTwo : List FileInput := [exGoodFileA, exGoodFileB]

/-- A from-scratch run over one good file. -/
def exScratchRun : BatchAcc :=
  batchRun exSplit "t1" "archive" false [exGoodFileA]
    (initAcc 1 [] initialState)

/-- The restarted run after an interruption that completed that file. -/
def exRestartRun : BatchAcc :=
  batchRun exSplit "t1" "archive" false [exGoodFileA]
    (initAcc 1 exScratchRun.completed exScratchRun.st)

/-- C5 counterexample: a run interrupted after its single file and then
restarted reports ingested 0 and skipped 1, while the uninterrupted run
reports ingested 1 and skipped 0: the final statistics counters of the
restarted run do not equal those of the from-scratch run. -/
theorem batch_resume_totals_differ :
    exScratchRun.ingested = 1 ∧
    exScratchRun.skipped = 0 ∧
    exScratchRun.errors = 0 ∧
    exRestartRun.ingested = 0 ∧
    exRestartRun.skipped = 1 ∧
    exRestartRun.errors = 0 ∧
    exRestartRun.ingested ≠ exScratchRun.ingested := by decide

/-- C5 witness: the amended theorem applied to a concrete two-file
batch interrupted after its first file. -/
theorem batch_resume_matches_scratch_witness :
    1 ≤ exFilesTwo.length ∧
    (exFilesTwo.map (fun f => f.fname)).Nodup ∧
    (batchRun exSplit "t1" "archive" false exFilesTwo
        (initAcc exFilesTwo.length (resumeNames exFilesTwo 1)
          (checkpointAfter exSplit "t1" "archive" exFilesTwo
            initialState 1).st)).st =
      (batchRun exSplit "t1" "archive" false exFilesTwo
        (initAcc exFilesTwo.length [] initialState)).st :=
  ⟨by decide, by decide,
   (batch_resume_matches_scratch exSplit "t1" "archive" exFilesTwo
       initialState 1 (by decide) (by decide)).2.1⟩

/-! Sortedness and stability of the search ranking. -/

/-- Inserting into the ascending candidate ranking permutes with
consing. -/
theorem insertAsc_perm (dist : ChunkEntry → ℚ) (e : ChunkEntry)
    (l : List ChunkEntry) : (insertAsc dist e l).Perm (e :: l) := by
  induction l with
  | nil => simp [insertAsc]
  | cons x xs ih =>
    by_cases hx : dist x < dist e
    · rw [insertAsc, if_pos hx]
      exact (ih.cons x).trans (List.Perm.swap e x xs)
    · rw [insertAsc, if_neg hx]

/-- The candidate ranking is a permutation of its input. -/
theorem rankByDist_perm (dist : ChunkEntry → ℚ) (l : List ChunkEntry) :
    (rankByDist dist l).Perm l := by
  induction l with
  | nil => simp [rankByDist]
  | cons a t ih =>
    have heq : rankByDist dist (a :: t) = insertAsc dist a (rankByDist dist t) :=
      rfl
    rw [heq]
    exact (insertAsc_perm dist a (rankByDist dist t)).trans (ih.cons a)

/-- Inserting into a descending-sorted hit list keeps it sorted. -/
theorem insertHitDesc_sorted (h : SearchHit) (l : List SearchHit)
    (hl : List.Pairwise (fun a b => b.score ≤ a.score) l) :
    List.Pairwise (fun a b => b.score ≤ a.score) (insertHitDesc h l) := by
  induction l with
  | nil => simp [insertHitDesc]
  | cons x xs ih =>
    obtain ⟨hx1, hx2⟩ := List.pairwise_cons.mp hl
    by_cases hx : x.score > h.score
    · rw [insertHitDesc, if_pos hx]
      refine List.pairwise_cons.mpr ⟨?_, ih hx2⟩
      intro y hy
      rcases List.mem_cons.mp ((insertHitDesc_perm h xs).mem_iff.mp hy) with
        hy2 | hy2
      · exact hy2 ▸ le_of_lt hx
      · exact hx1 y hy2
    · rw [insertHitDesc, if_neg hx]
      refine List.pairwise_cons.mpr ⟨?_, hl⟩
      intro y hy
      rcases List.mem_cons.mp hy with hy2 | hy2
      · exact hy2 ▸ le_of_not_lt hx
      · exact le_trans (hx1 y hy2) (le_of_not_lt hx)

/-- The stable sort of search produces a descending score sequence. -/
theorem sortHitsDesc_sorted (l : List SearchHit) :
    List.Pairwise (fun a b => b.score ≤ a.score) (sortHitsDesc l) := by
  induction l with
  | nil => simp [sortHitsDesc]
  | cons a t ih => exact insertHitDesc_sorted a (sortHitsDesc t) ih

/-- Inserting a hit of a different score leaves a score class of the
list untouched. -/
theorem insertHitDesc_filter_ne (h : SearchHit) (l : List SearchHit)
    (v : ℚ) (hv : h.score ≠ v) :
    (insertHitDesc h l).filter (fun x => x.score == v) =
      l.filter (fun x => x.score == v) := by
  induction l with
  | nil => simp [insertHitDesc, List.filter_cons, hv]
  | cons x xs ih =>
    by_cases hx : x.score > h.score
    · rw [insertHitDesc, if_pos hx]
      rw [List.filter_cons, List.filter_cons, ih]
    · rw [insertHitDesc, if_neg hx]
      rw [List.filter_cons]
      simp [hv]

/-- Inserting a hit into a sorted list puts it in front of its whole
score class: the earlier element stays ahead of equal-score later
ones. -/
theorem insertHitDesc_filter_eq (h : SearchHit) (l : List SearchHit)
    (v : ℚ) (hv : h.score = v)
    (hl : List.Pairwise (fun a b => b.score ≤ a.score) l) :
    (insertHitDesc h l).filter (fun x => x.score == v) =
      h :: l.filter (fun x => x.score == v) := by
  induction l with
  | nil => simp [insertHitDesc, List.filter_cons, hv]
  | cons x xs ih =>
    obtain ⟨hx1, hx2⟩ := List.pairwise_cons.mp hl
    by_cases hx : x.score > h.score
    · have hxv : x.score ≠ v := by
        rw [← hv]
        exact ne_of_gt hx
      have hpx : (x.score == v) = false := by simpa using hxv
      rw [insertHitDesc, if_pos hx]
      rw [List.filter_cons, List.filter_cons, hpx]
      simp only [Bool.false_eq_true, if_false]
      exact ih hx2
    · have hph : (h.score == v) = true := by simpa using hv
      rw [insertHitDesc, if_neg hx]
      rw [List.filter_cons, hph]
      simp only [if_true]

/-- Stability of the search sort: within every final-score class the
sorted order is exactly the original candidate order. -/
theorem sortHitsDesc_stable (l : List SearchHit) (v : ℚ) :
    (sortHitsDesc l).filter (fun x => x.score == v) =
      l.filter (fun x => x.score == v) := by
  induction l with
  | nil => simp [sortHitsDesc]
  | cons a t ih =>
    have heq : sortHitsDesc (a :: t) = insertHitDesc a (sortHitsDesc t) :=
      rfl
    rw [heq]
    by_cases ha : a.score = v
    · rw [insertHitDesc_filter_eq a (sortHitsDesc t) v ha
        (sortHitsDesc_sorted t)]
      rw [ih, List.filter_cons, if_pos (by simpa using ha)]
    · rw [insertHitDesc_filter_ne a (sortHitsDesc t) v ha]
      rw [ih, List.filter_cons, if_neg (by simpa using ha)]

/-- With no filter every stored entry matches the where clause. -/
theorem filter_matchesWhere_none (entries : List ChunkEntry) :
    entries.filter (matchesWhere none none) = entries :=
  List.filter_eq_self.mpr (fun _ _ => rfl)

/-- C8: with gold boosting on and no filters, search fetches
min(3 x n_results, count) candidates, returns the first n_results of
the stable descending sort of their weighted hits, hence a descending
sequence of length min(n_results, count) — fewer than n_results when
the store holds fewer — with every tie class staying in original
vector-store order. -/
theorem search_overfetch_sort_truncate (dist : String → ChunkEntry → ℚ)
    (st : EngineState) (q : String) (n : Nat) :
    (search dist st q n none none true).length = min n st.entries.length ∧
    search dist st q n none none true =
      (sortHitsDesc ((chromaQuery (dist q) st.entries
        (min (n * 3) st.entries.length) none none).map
          (fun e => mkHit true (dist q e) e))).take n ∧
    (∀ (ff tf : Option String) (b : Bool),
      List.Pairwise (fun a b2 => b2.score ≤ a.score)
        (search dist st q n ff tf b)) ∧
    (∀ v : ℚ,
      (sortHitsDesc ((chromaQuery (dist q) st.entries
        (min (n * 3) st.entries.length) none none).map
          (fun e => mkHit true (dist q e) e))).filter
            (fun x => x.score == v) =
      ((chromaQuery (dist q) st.entries
        (min (n * 3) st.entries.length) none none).map
          (fun e => mkHit true (dist q e) e)).filter
            (fun x => x.score == v)) := by
  refine ⟨?_, ?_, ?_, ?_⟩
  · by_cases h0 : st.entries.length = 0
    · simp [search, h0]
    · rw [search, if_neg h0]
      dsimp only
      rw [List.length_take, (sortHitsDesc_perm _).length_eq,
        List.length_map]
      unfold chromaQuery
      rw [List.length_take, (rankByDist_perm _ _).length_eq,
        filter_matchesWhere_none]
      simp only [eq_self_iff_true, if_true]
      omega
  · by_cases h0 : st.entries.length = 0
    · have he : st.entries = [] := List.length_eq_zero.mp h0
      rw [search, if_pos h0, he]
      simp [chromaQuery, matchesWhere, rankByDist, sortHitsDesc]
    · rw [search, if_neg h0]
      dsimp only
      simp only [eq_self_iff_true, if_true]
  · intro ff tf b
    by_cases h0 : st.entries.length = 0
    · simp [search, h0]
    · rw [search, if_neg h0]
      exact (sortHitsDesc_sorted _).sublist (List.take_sublist n _)
  · intro v
    exact sortHitsDesc_stable _ v

end DocMaster
